import Mathlib

/-!
Verification of the bit-manipulation, type-tag and endianness primitives of
`src/include/helpers/utils.hpp` (namespace `hex`).

Machine integers (`u64`, `u32`) are modelled as `Nat` with explicit
`% 2 ^ 64` wrap wherever C++ unsigned arithmetic wraps; unsigned
subtraction `a - b` on `u64` is modelled as `(a + (2 ^ 64 - b)) % 2 ^ 64`.
The fallible size-parameterized `changeEndianess` (which throws
`std::invalid_argument`) is modelled with `Except`.
-/

namespace Hex

/-- Byte orders, modelling `std::endian`. -/
inductive Endian where
  | little
  | big
deriving DecidableEq

/-- Model of `std::endian::native`. ImHex targets little-endian platforms
(x86-64 / AArch64); every property below depends only on whether the
requested order equals the native one. -/
def Endian.native : Endian := Endian.little

/-- Error raised by the size-parameterized `changeEndianess`
(`throw std::invalid_argument("Invalid value size!")`). -/
inductive SwapError where
  | InvalidSize
deriving DecidableEq

/-- Model of `extract(u8 from, u8 to, const u64 &value)`:
`u64 mask = (std::numeric_limits<u64>::max() >> (63 - (from - to))) << to;`
`return (value & mask) >> to;`
(`from` is a Lean keyword, so the parameters are named `fromBit`/`toBit`.)
The subtractions are natural-number subtractions, faithful to the source
under the documented precondition `to <= from <= 63`; the `% 2 ^ 64` models
the wrap of the `u64` left shift. -/
def extract (fromBit toBit value : Nat) : Nat :=
  let mask := (((2 ^ 64 - 1) >>> (63 - (fromBit - toBit))) <<< toBit) % 2 ^ 64
  (value &&& mask) >>> toBit

/-- Model of `signExtend(u64 value, u8 currWidth, u8 targetWidth)`:
`u64 mask = 1LLU << (currWidth - 1);`
`return (((value ^ mask) - mask) << (64 - targetWidth)) >> (64 - targetWidth);`
All `u64` arithmetic wraps modulo `2 ^ 64`; since the operand is unsigned,
the final right shift is a logical shift. -/
def signExtend (value currWidth targetWidth : Nat) : Nat :=
  let mask := (1 <<< (currWidth - 1)) % 2 ^ 64
  let rebased := ((value ^^^ mask) + (2 ^ 64 - mask)) % 2 ^ 64
  ((rebased <<< (64 - targetWidth)) % 2 ^ 64) >>> (64 - targetWidth)

/-- Model of `isUnsigned`: the type tag is the `u32` obtained by
`static_cast<u32>(type)`; the predicate tests `(tag & 0x0F) == 0x00`. -/
def isUnsigned (type : Nat) : Bool := type &&& 0x0F == 0x00

/-- Model of `isSigned`: tests `(tag & 0x0F) == 0x01`. -/
def isSigned (type : Nat) : Bool := type &&& 0x0F == 0x01

/-- Model of `isFloatingPoint`: tests `(tag & 0x0F) == 0x02`. -/
def isFloatingPoint (type : Nat) : Bool := type &&& 0x0F == 0x02

/-- Model of `getTypeSize`: `static_cast<u32>(type) >> 4`. -/
def getTypeSize (type : Nat) : Nat := type >>> 4

/-- Model of `__builtin_bswap16` applied to an integer argument: the
argument is truncated to its low 16 bits and those two bytes are reversed;
the `uint16_t` result is zero-extended back. -/
def bswap16 (v : Nat) : Nat :=
  v % 2 ^ 8 * 2 ^ 8 + v / 2 ^ 8 % 2 ^ 8

/-- Model of `__builtin_bswap32`: the low 32 bits, bytes reversed. -/
def bswap32 (v : Nat) : Nat :=
  v % 2 ^ 8 * 2 ^ 24 + v / 2 ^ 8 % 2 ^ 8 * 2 ^ 16 +
    v / 2 ^ 16 % 2 ^ 8 * 2 ^ 8 + v / 2 ^ 24 % 2 ^ 8

/-- Model of `__builtin_bswap64`: the low 64 bits, bytes reversed. -/
def bswap64 (v : Nat) : Nat :=
  v % 2 ^ 8 * 2 ^ 56 + v / 2 ^ 8 % 2 ^ 8 * 2 ^ 48 +
    v / 2 ^ 16 % 2 ^ 8 * 2 ^ 40 + v / 2 ^ 24 % 2 ^ 8 * 2 ^ 32 +
    v / 2 ^ 32 % 2 ^ 8 * 2 ^ 24 + v / 2 ^ 40 % 2 ^ 8 * 2 ^ 16 +
    v / 2 ^ 48 % 2 ^ 8 * 2 ^ 8 + v / 2 ^ 56 % 2 ^ 8

/-- Model of the statically-typed `changeEndianess<T>(T value, std::endian)`.
`width` is `sizeof(T)` in bytes; a value of type `T` satisfies
`value < 2 ^ (8 * width)`. Widths other than 1, 2, 4, 8 are rejected at
compile time by `static_assert`, so the final fallthrough is unreachable
for any instantiable `T`. -/
def changeEndianess (width value : Nat) (endian : Endian) : Nat :=
  if endian = Endian.native then value
  else if width = 1 then value
  else if width = 2 then bswap16 value
  else if width = 4 then bswap32 value
  else if width = 8 then bswap64 value
  else value

/-- Model of the size-parameterized
`changeEndianess<T>(T value, size_t size, std::endian)` at `T = u64`:
the byte order is tested first, then the runtime size is dispatched, and a
size outside {1, 2, 4, 8} throws `std::invalid_argument`. -/
def changeEndianessSized (value size : Nat) (endian : Endian) : Except SwapError Nat :=
  if endian = Endian.native then Except.ok value
  else if size = 1 then Except.ok value
  else if size = 2 then Except.ok (bswap16 value)
  else if size = 4 then Except.ok (bswap32 value)
  else if size = 8 then Except.ok (bswap64 value)
  else Except.error SwapError.InvalidSize

/-- Formalisation of the result claimed for `signExtend`: the
targetWidth-bit two's-complement representation (as an unsigned bit
pattern occupying the low targetWidth bits) of the signed integer denoted
by the low currWidth bits of `value`. -/
def signExtendClaimedResult (value currWidth targetWidth : Nat) : Nat :=
  ((if value % 2 ^ currWidth < 2 ^ (currWidth - 1)
      then ((value % 2 ^ currWidth : Nat) : Int)
      else ((value % 2 ^ currWidth : Nat) : Int) - 2 ^ currWidth) % 2 ^ targetWidth).toNat

/-! Helper lemmas shared by the claim theorems. -/

theorem xor_two_pow_of_lt {v k : Nat} (h : v < 2 ^ k) : v ^^^ 2 ^ k = v + 2 ^ k := by
  apply Nat.eq_of_testBit_eq
  intro i
  rw [Nat.add_comm]
  rcases Nat.lt_trichotomy i k with hik | rfl | hik
  · rw [Nat.testBit_xor, Nat.testBit_two_pow_of_ne (Nat.ne_of_gt hik),
      Nat.testBit_two_pow_add_gt hik, Bool.xor_false]
  · rw [Nat.testBit_xor, Nat.testBit_two_pow_self, Nat.testBit_two_pow_add_eq,
      Nat.testBit_lt_two_pow h]
    rfl
  · have h1 : v < 2 ^ i :=
      Nat.lt_of_lt_of_le h (Nat.pow_le_pow_right (by norm_num) (Nat.le_of_lt hik))
    have h2 : 2 ^ k + v < 2 ^ i := by
      have hs : 2 ^ k + v < 2 ^ (k + 1) := by
        have : (2 : Nat) ^ (k + 1) = 2 ^ k * 2 := Nat.pow_succ ..
        omega
      exact Nat.lt_of_lt_of_le hs (Nat.pow_le_pow_right (by norm_num) hik)
    rw [Nat.testBit_xor, Nat.testBit_two_pow_of_ne (Nat.ne_of_lt hik),
      Nat.testBit_lt_two_pow h1, Nat.testBit_lt_two_pow h2, Bool.xor_false]

theorem xor_two_pow_of_ge {v k : Nat} (h1 : 2 ^ k ≤ v) (h2 : v < 2 ^ (k + 1)) :
    v ^^^ 2 ^ k = v - 2 ^ k := by
  have hp : (2 : Nat) ^ (k + 1) = 2 ^ k * 2 := Nat.pow_succ ..
  have hr : v - 2 ^ k < 2 ^ k := by omega
  have hv : v = (v - 2 ^ k) + 2 ^ k := by omega
  calc v ^^^ 2 ^ k = ((v - 2 ^ k) + 2 ^ k) ^^^ 2 ^ k := by rw [← hv]
    _ = ((v - 2 ^ k) ^^^ 2 ^ k) ^^^ 2 ^ k := by rw [xor_two_pow_of_lt hr]
    _ = (v - 2 ^ k) ^^^ (2 ^ k ^^^ 2 ^ k) := Nat.xor_assoc ..
    _ = v - 2 ^ k := by rw [Nat.xor_self, Nat.xor_zero]

theorem shiftLeft_mod_shiftRight (x t : Nat) (ht : t ≤ 64) :
    ((x <<< (64 - t)) % 2 ^ 64) >>> (64 - t) = x % 2 ^ t := by
  rw [Nat.shiftLeft_eq, Nat.shiftRight_eq_div_pow]
  have hsplit : (2 : Nat) ^ 64 = 2 ^ t * 2 ^ (64 - t) := by
    rw [← pow_add]; congr 1; omega
  rw [hsplit, Nat.mul_mod_mul_right, Nat.mul_div_cancel _ (Nat.two_pow_pos _)]

theorem two_pow_sub_one_shiftRight (k : Nat) :
    (2 ^ 64 - 1) >>> k = 2 ^ (64 - k) - 1 := by
  apply Nat.eq_of_testBit_eq
  intro i
  rw [Nat.testBit_shiftRight, Nat.testBit_two_pow_sub_one, Nat.testBit_two_pow_sub_one]
  simp only [decide_eq_decide]
  omega

theorem bswap16_bswap16 (v : Nat) : bswap16 (bswap16 v) = v % 2 ^ 16 := by
  have aux : ∀ a b : Nat, a < 2 ^ 8 → b < 2 ^ 8 → bswap16 (a * 2 ^ 8 + b) = b * 2 ^ 8 + a := by
    intro a b ha hb; unfold bswap16; omega
  show bswap16 (v % 2 ^ 8 * 2 ^ 8 + v / 2 ^ 8 % 2 ^ 8) = v % 2 ^ 16
  rw [aux (v % 2 ^ 8) (v / 2 ^ 8 % 2 ^ 8) (by omega) (by omega)]
  omega

set_option maxHeartbeats 2000000 in
theorem bswap32_bswap32 (v : Nat) : bswap32 (bswap32 v) = v % 2 ^ 32 := by
  have aux : ∀ a b c d : Nat, a < 2 ^ 8 → b < 2 ^ 8 → c < 2 ^ 8 → d < 2 ^ 8 →
      bswap32 (a * 2 ^ 24 + b * 2 ^ 16 + c * 2 ^ 8 + d) =
        d * 2 ^ 24 + c * 2 ^ 16 + b * 2 ^ 8 + a := by
    intro a b c d ha hb hc hd; unfold bswap32; omega
  show bswap32 (v % 2 ^ 8 * 2 ^ 24 + v / 2 ^ 8 % 2 ^ 8 * 2 ^ 16 +
      v / 2 ^ 16 % 2 ^ 8 * 2 ^ 8 + v / 2 ^ 24 % 2 ^ 8) = v % 2 ^ 32
  rw [aux (v % 2 ^ 8) (v / 2 ^ 8 % 2 ^ 8) (v / 2 ^ 16 % 2 ^ 8) (v / 2 ^ 24 % 2 ^ 8)
    (by omega) (by omega) (by omega) (by omega)]
  omega

set_option maxHeartbeats 8000000 in
theorem bswap64_bswap64 (v : Nat) : bswap64 (bswap64 v) = v % 2 ^ 64 := by
  have aux : ∀ a b c d e f g i : Nat, a < 2 ^ 8 → b < 2 ^ 8 → c < 2 ^ 8 → d < 2 ^ 8 →
      e < 2 ^ 8 → f < 2 ^ 8 → g < 2 ^ 8 → i < 2 ^ 8 →
      bswap64 (a * 2 ^ 56 + b * 2 ^ 48 + c * 2 ^ 40 + d * 2 ^ 32 +
        e * 2 ^ 24 + f * 2 ^ 16 + g * 2 ^ 8 + i) =
        i * 2 ^ 56 + g * 2 ^ 48 + f * 2 ^ 40 + e * 2 ^ 32 +
          d * 2 ^ 24 + c * 2 ^ 16 + b * 2 ^ 8 + a := by
    intro a b c d e f g i ha hb hc hd he hf hg hi; unfold bswap64; omega
  show bswap64 (v % 2 ^ 8 * 2 ^ 56 + v / 2 ^ 8 % 2 ^ 8 * 2 ^ 48 +
      v / 2 ^ 16 % 2 ^ 8 * 2 ^ 40 + v / 2 ^ 24 % 2 ^ 8 * 2 ^ 32 +
      v / 2 ^ 32 % 2 ^ 8 * 2 ^ 24 + v / 2 ^ 40 % 2 ^ 8 * 2 ^ 16 +
      v / 2 ^ 48 % 2 ^ 8 * 2 ^ 8 + v / 2 ^ 56 % 2 ^ 8) = v % 2 ^ 64
  rw [aux (v % 2 ^ 8) (v / 2 ^ 8 % 2 ^ 8) (v / 2 ^ 16 % 2 ^ 8) (v / 2 ^ 24 % 2 ^ 8)
    (v / 2 ^ 32 % 2 ^ 8) (v / 2 ^ 40 % 2 ^ 8) (v / 2 ^ 48 % 2 ^ 8) (v / 2 ^ 56 % 2 ^ 8)
    (by omega) (by omega) (by omega) (by omega) (by omega) (by omega) (by omega) (by omega)]
  omega

theorem signExtend_eq_sext (value w t : Nat) (hw1 : 1 ≤ w) (hw2 : w ≤ 64)
    (ht2 : t ≤ 64) (hv : value < 2 ^ w) :
    signExtend value w t =
      (if value < 2 ^ (w - 1) then value else 2 ^ 64 - 2 ^ w + value) % 2 ^ t := by
  simp only [signExtend]
  have hmask : (1 <<< (w - 1)) % 2 ^ 64 = 2 ^ (w - 1) := by
    rw [Nat.one_shiftLeft]
    exact Nat.mod_eq_of_lt (Nat.pow_lt_pow_right (by norm_num) (by omega))
  rw [hmask]
  have hpow : (2 : Nat) ^ w = 2 ^ (w - 1) * 2 := by
    rw [← Nat.pow_succ]
    congr 1
    omega
  have hle64 : (2 : Nat) ^ w ≤ 2 ^ 64 := Nat.pow_le_pow_right (by norm_num) hw2
  by_cases hcase : value < 2 ^ (w - 1)
  · rw [if_pos hcase, xor_two_pow_of_lt hcase]
    have heq : (value + 2 ^ (w - 1) + (2 ^ 64 - 2 ^ (w - 1))) % 2 ^ 64 = value := by
      have h1 : value + 2 ^ (w - 1) + (2 ^ 64 - 2 ^ (w - 1)) = value + 2 ^ 64 := by omega
      rw [h1, Nat.add_mod_right]
      exact Nat.mod_eq_of_lt (by omega)
    rw [heq, shiftLeft_mod_shiftRight _ _ ht2]
  · have hge : 2 ^ (w - 1) ≤ value := Nat.le_of_not_lt hcase
    have hlt : value < 2 ^ (w - 1 + 1) := by
      have he : w - 1 + 1 = w := by omega
      rw [he]; exact hv
    rw [if_neg hcase, xor_two_pow_of_ge hge hlt]
    have heq : (value - 2 ^ (w - 1) + (2 ^ 64 - 2 ^ (w - 1))) % 2 ^ 64 =
        2 ^ 64 - 2 ^ w + value := by
      have h1 : value - 2 ^ (w - 1) + (2 ^ 64 - 2 ^ (w - 1)) = 2 ^ 64 - 2 ^ w + value := by
        omega
      rw [h1]
      exact Nat.mod_eq_of_lt (by omega)
    rw [heq, shiftLeft_mod_shiftRight _ _ ht2]

/-! Claim theorems. -/

/-- C5: for every type tag, at most one of `isUnsigned`, `isSigned` and
`isFloatingPoint` is true: the three predicates compare the same low nibble
`tag & 0x0F` against the distinct constants 0x0, 0x1 and 0x2, so either
exactly one holds or (for an unclassified low nibble) none does, never more
than one. -/
theorem type_class_predicates_exclusive (type : Nat) :
    (isUnsigned type && isSigned type) = false ∧
    (isUnsigned type && isFloatingPoint type) = false ∧
    (isSigned type && isFloatingPoint type) = false := by
  refine ⟨?_, ?_, ?_⟩ <;>
    · simp only [isUnsigned, isSigned, isFloatingPoint, Bool.and_eq_false_iff,
        beq_eq_false_iff_ne, ne_eq]
      omega

/-- C6: `getTypeSize` is the total function `tag >> 4`, i.e. division by
`2 ^ 4`, with no error condition for any tag value including 0. -/
theorem getTypeSize_shift_total (type : Nat) :
    getTypeSize type = type / 2 ^ 4 ∧ getTypeSize 0 = 0 :=
  ⟨Nat.shiftRight_eq_div_pow type 4, rfl⟩

/-- C7: both `changeEndianess` variants return the value unchanged when the
requested order is the native one (the sized variant for every byte count),
and the statically-typed variant returns the value unchanged for 1-byte
types regardless of the requested order. -/
theorem swap_native_order_identity (width value size : Nat) (endian : Endian)
    (hw : width = 1 ∨ width = 2 ∨ width = 4 ∨ width = 8) :
    changeEndianess width value Endian.native = value ∧
    changeEndianess 1 value endian = value ∧
    changeEndianessSized value size Endian.native = Except.ok value := by
  refine ⟨?_, ?_, ?_⟩
  · simp [changeEndianess]
  · cases endian <;> simp [changeEndianess, Endian.native]
  · simp [changeEndianessSized]

/-- Witness for C7 at width 2, value 7, requested order big, byte count 3. -/
theorem swap_native_order_identity_witness :
    (2 = 1 ∨ 2 = 2 ∨ 2 = 4 ∨ 2 = 8) ∧
    (changeEndianess 2 7 Endian.native = 7 ∧
     changeEndianess 1 7 Endian.big = 7 ∧
     changeEndianessSized 7 3 Endian.native = Except.ok 7) :=
  ⟨by decide, swap_native_order_identity 2 7 3 Endian.big (by decide)⟩

/-- C9: the sized `changeEndianess` tests the byte order before validating
the size, so with the native order it returns the value unchanged for every
byte count (including 0, 3, 5, 7, 9), and an `InvalidSize` error occurs
exactly when the order is non-native and the byte count is outside
{1, 2, 4, 8}. -/
theorem sized_swap_native_before_size_check (value size : Nat) (endian : Endian) :
    changeEndianessSized value size Endian.native = Except.ok value ∧
    (changeEndianessSized value size endian = Except.error SwapError.InvalidSize ↔
      endian ≠ Endian.native ∧ ¬(size = 1 ∨ size = 2 ∨ size = 4 ∨ size = 8)) := by
  constructor
  · simp [changeEndianessSized]
  · cases endian
    · simp [changeEndianessSized, Endian.native]
    · simp only [changeEndianessSized, Endian.native]
      split_ifs <;> simp_all

/-- C3 counterexample: with the native byte order and byte count 0 the sized
variant succeeds and returns the value unchanged, so the claim that every
byte count outside {1, 2, 4, 8} fails with `InvalidSize` for every requested
byte order is false. -/
theorem sized_swap_native_bypasses_size_check :
    changeEndianessSized 5 0 Endian.native = Except.ok 5 ∧
    changeEndianessSized 5 0 Endian.native ≠ Except.error SwapError.InvalidSize := by
  refine ⟨rfl, ?_⟩
  intro hcontra
  simp [changeEndianessSized] at hcontra

/-- C3 (amended): for every value and every NON-native requested byte order,
the sized `changeEndianess` fails with `InvalidSize` exactly when the byte
count is outside {1, 2, 4, 8}, and succeeds exactly when the byte count is
in {1, 2, 4, 8}; with the native order it always succeeds regardless of the
byte count. -/
theorem sized_swap_invalid_size_iff (value size : Nat) (endian : Endian)
    (h : endian ≠ Endian.native) :
    (changeEndianessSized value size endian = Except.error SwapError.InvalidSize ↔
      ¬(size = 1 ∨ size = 2 ∨ size = 4 ∨ size = 8)) ∧
    ((∃ r, changeEndianessSized value size endian = Except.ok r) ↔
      (size = 1 ∨ size = 2 ∨ size = 4 ∨ size = 8)) := by
  have hb : endian = Endian.big := by cases endian <;> simp_all [Endian.native]
  subst hb
  simp only [changeEndianessSized, Endian.native]
  split_ifs <;> simp_all

/-- Witness for C3 at value 5, byte count 0, requested order big. -/
theorem sized_swap_invalid_size_iff_witness :
    Endian.big ≠ Endian.native ∧
    ((changeEndianessSized 5 0 Endian.big = Except.error SwapError.InvalidSize ↔
      ¬((0 : Nat) = 1 ∨ (0 : Nat) = 2 ∨ (0 : Nat) = 4 ∨ (0 : Nat) = 8)) ∧
     ((∃ r, changeEndianessSized 5 0 Endian.big = Except.ok r) ↔
      ((0 : Nat) = 1 ∨ (0 : Nat) = 2 ∨ (0 : Nat) = 4 ∨ (0 : Nat) = 8))) :=
  ⟨by decide, sized_swap_invalid_size_iff 5 0 Endian.big (by decide)⟩

/-- C8: `signExtend(value, w, w)` is the identity for every width
`1 ≤ w ≤ 64` and every value already representable in `w` bits. -/
theorem signExtend_same_width_identity (value w : Nat) (hw1 : 1 ≤ w) (hw2 : w ≤ 64)
    (hv : value < 2 ^ w) : signExtend value w w = value := by
  rw [signExtend_eq_sext value w w hw1 hw2 hw2 hv]
  by_cases hcase : value < 2 ^ (w - 1)
  · rw [if_pos hcase]
    exact Nat.mod_eq_of_lt hv
  · rw [if_neg hcase]
    have hdvd : (2 : Nat) ^ w ∣ 2 ^ 64 - 2 ^ w :=
      Nat.dvd_sub' (pow_dvd_pow 2 hw2) dvd_rfl
    obtain ⟨c, hc⟩ := hdvd
    rw [hc, Nat.add_comm, Nat.add_mul_mod_self_left]
    exact Nat.mod_eq_of_lt hv

/-- Witness for C8 at value 10, width 4. -/
theorem signExtend_same_width_identity_witness :
    1 ≤ 4 ∧ 4 ≤ 64 ∧ 10 < 2 ^ 4 ∧ signExtend 10 4 4 = 10 :=
  ⟨by decide, by decide, by decide,
    signExtend_same_width_identity 10 4 (by decide) (by decide) (by decide)⟩

/-- C2: under the precondition `to ≤ from ≤ 63`, `extract` returns the bits
of the 64-bit value at positions `to..from` inclusive, right-aligned at
bit 0, i.e. `value / 2 ^ to` reduced modulo `2 ^ (from - to + 1)`. -/
theorem extract_bits_correct (fromBit toBit value : Nat) (h1 : toBit ≤ fromBit)
    (h2 : fromBit ≤ 63) (h3 : value < 2 ^ 64) :
    extract fromBit toBit value = value / 2 ^ toBit % 2 ^ (fromBit - toBit + 1) := by
  simp only [extract]
  rw [two_pow_sub_one_shiftRight]
  have he : 64 - (63 - (fromBit - toBit)) = fromBit - toBit + 1 := by omega
  rw [he]
  have hlt : (2 ^ (fromBit - toBit + 1) - 1) <<< toBit < 2 ^ 64 := by
    rw [Nat.shiftLeft_eq]
    have hb : (2 : Nat) ^ (fromBit - toBit + 1) - 1 < 2 ^ (fromBit - toBit + 1) := by
      have := Nat.two_pow_pos (fromBit - toBit + 1)
      omega
    calc (2 ^ (fromBit - toBit + 1) - 1) * 2 ^ toBit
        < 2 ^ (fromBit - toBit + 1) * 2 ^ toBit :=
          (Nat.mul_lt_mul_right (Nat.two_pow_pos _)).mpr hb
      _ = 2 ^ (fromBit - toBit + 1 + toBit) := (pow_add 2 _ _).symm
      _ ≤ 2 ^ 64 := Nat.pow_le_pow_right (by norm_num) (by omega)
  rw [Nat.mod_eq_of_lt hlt]
  apply Nat.eq_of_testBit_eq
  intro i
  rw [← Nat.shiftRight_eq_div_pow]
  simp only [Nat.testBit_shiftRight, Nat.testBit_mod_two_pow, Nat.testBit_and,
    Nat.testBit_shiftLeft, Nat.testBit_two_pow_sub_one, Nat.add_sub_cancel_left]
  have hge : toBit ≤ toBit + i := Nat.le_add_right ..
  cases Nat.testBit value (toBit + i) <;> simp [hge]

/-- Witness for C2 at the spec's example `extract(7, 0, 0xFF) = 0xFF`. -/
theorem extract_bits_correct_witness :
    (0 ≤ 7 ∧ 7 ≤ 63 ∧ 255 < 2 ^ 64) ∧
    extract 7 0 255 = 255 / 2 ^ 0 % 2 ^ (7 - 0 + 1) :=
  ⟨⟨by decide, by decide, by decide⟩,
    extract_bits_correct 7 0 255 (by decide) (by decide) (by decide)⟩

/-- C1 counterexample: at value 16, currWidth 4, targetWidth 8, the low
4 bits of the value denote the signed integer 0, whose 8-bit
two's-complement representation is 0, but `signExtend` keeps the stray
bit 4 of the input and returns 16, so the claimed characterisation over
EVERY value is false. -/
theorem signExtend_claim_counterexample :
    signExtend 16 4 8 = 16 ∧ signExtendClaimedResult 16 4 8 = 0 ∧
    signExtend 16 4 8 ≠ signExtendClaimedResult 16 4 8 :=
  ⟨by decide, by decide, by decide⟩

/-- C1 (amended): for widths `1 ≤ currWidth ≤ 64`, `1 ≤ targetWidth ≤ 64`
and a value representable in `currWidth` bits (`value < 2 ^ currWidth`),
`signExtend` returns the `targetWidth`-bit two's-complement representation
of the signed integer denoted by the `currWidth`-bit value, occupying the
low `targetWidth` bits of the `u64` result; the bits above `targetWidth`
are zero, because the final `>>` on the unsigned `u64` is a logical (not
arithmetic) shift. -/
theorem signExtend_twos_complement (value w t : Nat) (hw1 : 1 ≤ w) (hw2 : w ≤ 64)
    (ht1 : 1 ≤ t) (ht2 : t ≤ 64) (hv : value < 2 ^ w) :
    (signExtend value w t : Int) =
      (if value < 2 ^ (w - 1) then (value : Int) else (value : Int) - 2 ^ w) % 2 ^ t ∧
    signExtend value w t < 2 ^ t := by
  have hsext := signExtend_eq_sext value w t hw1 hw2 ht2 hv
  constructor
  · rw [hsext]
    by_cases hcase : value < 2 ^ (w - 1)
    · rw [if_pos hcase, if_pos hcase]
      norm_cast
    · rw [if_neg hcase, if_neg hcase]
      have hle64 : (2 : Nat) ^ w ≤ 2 ^ 64 := Nat.pow_le_pow_right (by norm_num) hw2
      have hsplit : (2 : Int) ^ 64 = 2 ^ t * 2 ^ (64 - t) := by
        rw [← pow_add]
        congr 1
        omega
      have hcast : ((2 ^ 64 - 2 ^ w + value : Nat) : Int) = 2 ^ 64 - 2 ^ w + (value : Int) := by
        rw [Nat.cast_add, Nat.cast_sub hle64, Nat.cast_pow, Nat.cast_pow]
        norm_num
      rw [Int.natCast_mod, hcast]
      rw [show ((2 : Int) ^ 64 - 2 ^ w + (value : Int)) =
          ((value : Int) - 2 ^ w) + 2 ^ t * 2 ^ (64 - t) from by rw [hsplit]; ring]
      rw [show (((2 : Nat) ^ t : Nat) : Int) = (2 : Int) ^ t from by push_cast; ring]
      apply Int.add_mul_emod_self_left
  · rw [hsext]
    exact Nat.mod_lt _ (Nat.two_pow_pos t)

/-- Witness for C1 at value 10, currWidth 4, targetWidth 8: the result is
`0xFA = 250`, the 8-bit two's-complement representation of -6. -/
theorem signExtend_twos_complement_witness :
    (1 ≤ 4 ∧ 4 ≤ 64 ∧ 1 ≤ 8 ∧ 8 ≤ 64 ∧ 10 < 2 ^ 4) ∧
    ((signExtend 10 4 8 : Int) =
      (if (10 : Nat) < 2 ^ (4 - 1) then ((10 : Nat) : Int)
        else ((10 : Nat) : Int) - 2 ^ 4) % 2 ^ 8 ∧
     signExtend 10 4 8 < 2 ^ 8) :=
  ⟨⟨by decide, by decide, by decide, by decide, by decide⟩,
    signExtend_twos_complement 10 4 8 (by decide) (by decide) (by decide) (by decide)
      (by decide)⟩

/-- C4: the statically-typed `changeEndianess` is an involution: for every
width in {2, 4, 8} bytes, every value of that width and every non-native
requested order, applying it twice returns the original value. -/
theorem changeEndianess_involution (width value : Nat) (endian : Endian)
    (hw : width = 2 ∨ width = 4 ∨ width = 8) (he : endian ≠ Endian.native)
    (hv : value < 2 ^ (8 * width)) :
    changeEndianess width (changeEndianess width value endian) endian = value := by
  have hb : endian = Endian.big := by cases endian <;> simp_all [Endian.native]
  subst hb
  rcases hw with rfl | rfl | rfl
  · norm_num at hv
    simp [changeEndianess, Endian.native, bswap16_bswap16]
    omega
  · norm_num at hv
    simp [changeEndianess, Endian.native, bswap32_bswap32]
    omega
  · norm_num at hv
    simp [changeEndianess, Endian.native, bswap64_bswap64]
    omega

/-- Witness for C4 at width 2, value 0x1234, requested order big. -/
theorem changeEndianess_involution_witness :
    ((2 = 2 ∨ 2 = 4 ∨ 2 = 8) ∧ Endian.big ≠ Endian.native ∧ 0x1234 < 2 ^ (8 * 2)) ∧
    changeEndianess 2 (changeEndianess 2 0x1234 Endian.big) Endian.big = 0x1234 :=
  ⟨⟨by decide, by decide, by decide⟩,
    changeEndianess_involution 2 0x1234 Endian.big (by decide) (by decide) (by decide)⟩

/-- C10 counterexample: at byte count 1 with the non-native order, a `u64`
value wider than the byte count (300 ≥ 2^8) is returned unchanged — the
source returns early for `size == 1` without any byte-swap intrinsic — so
the result is not the byte-reversal of only the low 8 bits zero-extended
(which would be 44), the bits above `size * 8` are not discarded, and a
second application (of the same identity) does restore the original value,
contradicting every part of the claim at this in-scope input. -/
theorem sized_swap_size_one_counterexample :
    changeEndianessSized 300 1 Endian.big = Except.ok 300 ∧
    2 ^ (8 * 1) ≤ 300 ∧
    300 % 2 ^ (8 * 1) = 44 ∧
    changeEndianessSized 300 1 Endian.big ≠ Except.ok 44 := by
  refine ⟨rfl, by decide, by decide, ?_⟩
  intro hcontra
  simp [changeEndianessSized, Endian.native] at hcontra

/-- C10 (amended): for a non-native order and a byte count of 2 or 4 — the
byte counts at which a `u64` input can exceed the count and the swap
truncates — the sized `changeEndianess` returns the byte-reversal of only
the low `size * 8` bits, with all bits above `size * 8` zero; the bits of
the input above `size * 8` are discarded, so a second application yields
`value % 2 ^ (size * 8)`, which differs from the input whenever the input
does not fit in `size` bytes. (At byte count 1 the value is returned
unchanged with no truncation; at byte count 8 a `u64` cannot exceed the
count; other byte counts fail with `InvalidSize`.) -/
theorem sized_swap_truncation (value size : Nat) (endian : Endian)
    (he : endian ≠ Endian.native) (hs : size = 2 ∨ size = 4) (hv : value < 2 ^ 64) :
    ∃ r, changeEndianessSized value size endian = Except.ok r ∧
      r < 2 ^ (8 * size) ∧
      (∀ i, i < size → r / 2 ^ (8 * i) % 2 ^ 8 = value / 2 ^ (8 * (size - 1 - i)) % 2 ^ 8) ∧
      changeEndianessSized r size endian = Except.ok (value % 2 ^ (8 * size)) ∧
      (value % 2 ^ (8 * size) = value ↔ value < 2 ^ (8 * size)) := by
  have hb : endian = Endian.big := by cases endian <;> simp_all [Endian.native]
  subst hb
  rcases hs with rfl | rfl
  · refine ⟨bswap16 value, ?_, ?_, ?_, ?_, ?_⟩
    · simp [changeEndianessSized, Endian.native]
    · unfold bswap16
      norm_num
      omega
    · intro i hi
      have aux0 : ∀ a b : Nat, (a * 256 + b) % 256 = b % 256 := by
        intro a b
        omega
      have aux1 : ∀ a b : Nat, a < 256 → b < 256 → (a * 256 + b) / 256 % 256 = a := by
        intro a b ha hb2
        omega
      unfold bswap16
      interval_cases i
      · norm_num
        exact aux0 (value % 256) (value / 256)
      · norm_num
        exact aux1 (value % 256) (value / 256 % 256) (by omega) (by omega)
    · simp [changeEndianessSized, Endian.native, bswap16_bswap16]
    · norm_num
  · refine ⟨bswap32 value, ?_, ?_, ?_, ?_, ?_⟩
    · simp [changeEndianessSized, Endian.native]
    · unfold bswap32
      norm_num
      omega
    · intro i hi
      have aux0 : ∀ a b c d : Nat, a < 256 → b < 256 → c < 256 →
          (a * 16777216 + b * 65536 + c * 256 + d) % 256 = d % 256 := by
        intro a b c d ha hb2 hc
        omega
      have aux1 : ∀ a b c d : Nat, a < 256 → b < 256 → c < 256 → d < 256 →
          (a * 16777216 + b * 65536 + c * 256 + d) / 256 % 256 = c := by
        intro a b c d ha hb2 hc hd
        omega
      have aux2 : ∀ a b c d : Nat, a < 256 → b < 256 → c < 256 → d < 256 →
          (a * 16777216 + b * 65536 + c * 256 + d) / 65536 % 256 = b := by
        intro a b c d ha hb2 hc hd
        omega
      have aux3 : ∀ a b c d : Nat, a < 256 → b < 256 → c < 256 → d < 256 →
          (a * 16777216 + b * 65536 + c * 256 + d) / 16777216 % 256 = a := by
        intro a b c d ha hb2 hc hd
        omega
      unfold bswap32
      interval_cases i
      · norm_num
        exact aux0 (value % 256) (value / 256 % 256) (value / 65536 % 256)
          (value / 16777216) (by omega) (by omega) (by omega)
      · norm_num
        exact aux1 (value % 256) (value / 256 % 256) (value / 65536 % 256)
          (value / 16777216 % 256) (by omega) (by omega) (by omega) (by omega)
      · norm_num
        exact aux2 (value % 256) (value / 256 % 256) (value / 65536 % 256)
          (value / 16777216 % 256) (by omega) (by omega) (by omega) (by omega)
      · norm_num
        exact aux3 (value % 256) (value / 256 % 256) (value / 65536 % 256)
          (value / 16777216 % 256) (by omega) (by omega) (by omega) (by omega)
    · simp [changeEndianessSized, Endian.native, bswap32_bswap32]
    · norm_num

/-- Witness for C10 at value 0x11223344 (wider than 2 bytes), byte count 2,
requested order big. -/
theorem sized_swap_truncation_witness :
    (Endian.big ≠ Endian.native ∧ (2 = 2 ∨ 2 = 4) ∧ 0x11223344 < 2 ^ 64) ∧
    (∃ r, changeEndianessSized 0x11223344 2 Endian.big = Except.ok r ∧
      r < 2 ^ (8 * 2) ∧
      (∀ i, i < 2 → r / 2 ^ (8 * i) % 2 ^ 8 = 0x11223344 / 2 ^ (8 * (2 - 1 - i)) % 2 ^ 8) ∧
      changeEndianessSized r 2 Endian.big = Except.ok (0x11223344 % 2 ^ (8 * 2)) ∧
      (0x11223344 % 2 ^ (8 * 2) = 0x11223344 ↔ 0x11223344 < 2 ^ (8 * 2))) :=
  ⟨⟨by decide, by decide, by decide⟩,
    sized_swap_truncation 0x11223344 2 Endian.big (by decide) (by decide) (by decide)⟩

end Hex
